import Mathlib

/-!
# Verification of the Bishop-bot dice engine (`src/game/dice.py`)

A shallow embedding of `DiceManager` and its helpers.  Strings are
`List Char`; Python's global PRNG is modelled by a stream `g : Nat → Nat`
together with a cursor `i : Nat`: the call `random.randint(1, sides)` at
cursor `i` yields `1 + g i % sides` and advances the cursor by one.  Code
that can raise returns an explicit error constructor carrying the PRNG
cursor at the moment of the raise; the unbounded `while` loop of the
exploding-dice option is run on fuel, with a dedicated `hang` constructor
for fuel exhaustion (so that `∀ fuel, … = hang` expresses divergence).
-/

namespace BishopDice

/-! ## Characters (ASCII model of the Python `str` operations used) -/

/-- `str.lower` on one character (ASCII range, all the code uses). -/
def lowerChar (c : Char) : Char :=
  if 'A' ≤ c ∧ c ≤ 'Z' then Char.ofNat (c.toNat + 32) else c

/-- `str.upper` on one character. -/
def upperChar (c : Char) : Char :=
  if 'a' ≤ c ∧ c ≤ 'z' then Char.ofNat (c.toNat - 32) else c

/-- Python's regex class `\w` (ASCII part): letters, digits, underscore. -/
def isWordChar (c : Char) : Bool := c.isAlphanum || c = '_'

/-- Python's regex class `\s` (ASCII part). -/
def isSpaceChar (c : Char) : Bool :=
  c = ' ' || c = '\t' || c = '\n' || c = '\x0b' || c = '\x0c' || c = '\r'

/-- `expression.lower().replace(' ', '')`. -/
def pyNormalize (l : List Char) : List Char :=
  (l.map lowerChar).filter (fun c => c ≠ ' ')

/-! ## Decimal numerals (Python `int(s)` and `str(n)`) -/

/-- The digit character of `n % 10`-style values (`n ≥ 10` never produced). -/
def digitChar : Nat → Char
  | 0 => '0' | 1 => '1' | 2 => '2' | 3 => '3' | 4 => '4'
  | 5 => '5' | 6 => '6' | 7 => '7' | 8 => '8' | _ => '9'

/-- `str(n)` digit by digit; the fuel only bounds the recursion depth and
`natDigits` below always supplies enough of it. -/
def natDigitsAux : Nat → Nat → List Char
  | 0, n => [digitChar n]
  | fuel + 1, n =>
    if n < 10 then [digitChar n]
    else natDigitsAux fuel (n / 10) ++ [digitChar (n % 10)]

/-- `str(n)` for a natural number. -/
def natDigits (n : Nat) : List Char := natDigitsAux n n

/-- `str(m)` for a Python int (possibly negative). -/
def intDigits (m : Int) : List Char :=
  if m < 0 then '-' :: natDigits m.natAbs else natDigits m.toNat

/-- Numeric value of a digit character. -/
def digitVal (c : Char) : Nat := c.toNat - '0'.toNat

/-- `int(s)` over a digit run, with an accumulator (empty run gives `acc`). -/
def parseNatAcc (acc : Nat) : List Char → Nat
  | [] => acc
  | c :: rest => parseNatAcc (10 * acc + digitVal c) rest

/-- Greedy `\d+`/`\d*`: the longest digit prefix and the rest. -/
def takeDigits (l : List Char) : List Char × List Char :=
  (l.takeWhile Char.isDigit, l.dropWhile Char.isDigit)

/-! ## Numeral lemmas -/

theorem digitVal_digitChar {k : Nat} (h : k < 10) : digitVal (digitChar k) = k := by
  unfold digitChar
  interval_cases k <;> rfl

theorem isDigit_digitChar (k : Nat) : (digitChar k).isDigit = true := by
  unfold digitChar
  match k with
  | 0 | 1 | 2 | 3 | 4 | 5 | 6 | 7 | 8 => rfl
  | n + 9 => rfl

theorem lowerChar_digitChar (k : Nat) : lowerChar (digitChar k) = digitChar k := by
  unfold digitChar
  match k with
  | 0 | 1 | 2 | 3 | 4 | 5 | 6 | 7 | 8 => rfl
  | n + 9 => rfl

theorem natDigitsAux_ne_nil (fuel n : Nat) : natDigitsAux fuel n ≠ [] := by
  cases fuel with
  | zero => simp [natDigitsAux]
  | succ fuel =>
    unfold natDigitsAux
    split <;> simp

theorem natDigits_ne_nil (n : Nat) : natDigits n ≠ [] := natDigitsAux_ne_nil n n

theorem natDigitsAux_all_digit (fuel : Nat) :
    ∀ n, ∀ c ∈ natDigitsAux fuel n, c.isDigit = true := by
  induction fuel with
  | zero =>
    intro n c hc
    simp only [natDigitsAux, List.mem_singleton] at hc
    subst hc; exact isDigit_digitChar n
  | succ fuel ih =>
    intro n c hc
    unfold natDigitsAux at hc
    split at hc
    · simp only [List.mem_singleton] at hc
      subst hc; exact isDigit_digitChar n
    · rcases List.mem_append.1 hc with h | h
      · exact ih (n / 10) c h
      · simp only [List.mem_singleton] at h
        subst h; exact isDigit_digitChar (n % 10)

theorem natDigits_all_digit (n : Nat) : ∀ c ∈ natDigits n, c.isDigit = true :=
  natDigitsAux_all_digit n n

theorem parseNatAcc_nil (acc : Nat) : parseNatAcc acc [] = acc := rfl

theorem parseNatAcc_cons (acc : Nat) (c : Char) (t : List Char) :
    parseNatAcc acc (c :: t) = parseNatAcc (10 * acc + digitVal c) t := rfl

theorem parseNatAcc_append (acc : Nat) (l₁ l₂ : List Char) :
    parseNatAcc acc (l₁ ++ l₂) = parseNatAcc (parseNatAcc acc l₁) l₂ := by
  induction l₁ generalizing acc with
  | nil => rfl
  | cons c t ih => rw [List.cons_append, parseNatAcc_cons, parseNatAcc_cons, ih]

theorem parseNatAcc_natDigitsAux (fuel : Nat) : ∀ acc n, n ≤ fuel →
    parseNatAcc acc (natDigitsAux fuel n) = 10 ^ (natDigitsAux fuel n).length * acc + n := by
  induction fuel with
  | zero =>
    intro acc n hn
    have hz : n = 0 := Nat.le_zero.1 hn
    subst hz
    rw [show natDigitsAux 0 0 = [digitChar 0] from rfl, parseNatAcc_cons,
      digitVal_digitChar (by norm_num), parseNatAcc_nil]
    simp only [List.length_singleton, pow_one]
  | succ fuel ih =>
    intro acc n hn
    rw [natDigitsAux]
    split
    · next h =>
      rw [parseNatAcc_cons, digitVal_digitChar h, parseNatAcc_nil]
      simp only [List.length_singleton, pow_one]
    · next h =>
      have hrec : n / 10 ≤ fuel := by
        have := Nat.div_lt_self (show 0 < n by omega) (show 1 < 10 by norm_num)
        omega
      rw [parseNatAcc_append, ih acc (n / 10) hrec]
      rw [parseNatAcc_cons, digitVal_digitChar (Nat.mod_lt n (by norm_num)), parseNatAcc_nil]
      simp only [List.length_append, List.length_singleton]
      have hm : 10 * (n / 10) + n % 10 = n := by omega
      generalize (natDigitsAux fuel (n / 10)).length = L
      have hexp : 10 * (10 ^ L * acc + n / 10) + n % 10
          = 10 ^ (L + 1) * acc + (10 * (n / 10) + n % 10) := by ring
      rw [hexp, hm]

theorem parseNatAcc_natDigits (acc n : Nat) :
    parseNatAcc acc (natDigits n) = 10 ^ (natDigits n).length * acc + n :=
  parseNatAcc_natDigitsAux n acc n (Nat.le_refl n)

theorem parseNat_natDigits (n : Nat) : parseNatAcc 0 (natDigits n) = n := by
  simpa using parseNatAcc_natDigits 0 n

/-! ## Data model -/

/-- `DiceRoll`: expression, individual die results, total, breakdown. -/
structure DiceRoll where
  expression : List Char
  rolls : List Nat
  total : Int
  breakdown : List Char
deriving DecidableEq

/-- Outcome of `DiceManager.roll`: a result with the PRNG cursor after the
call, or the `ValueError` raise with the cursor at the moment of raising. -/
inductive RollResult where
  | ok : DiceRoll → Nat → RollResult
  | invalid : Nat → RollResult
deriving DecidableEq

/-- Outcome of `DiceManager.roll_advanced` (and of the dispatcher built on
it): a result, a `ValueError` raise, or fuel exhaustion of the unbounded
exploding-dice `while` loop (`hang` for every fuel = divergence). -/
inductive AdvResult where
  | ok : DiceRoll → Nat → AdvResult
  | invalid : Nat → AdvResult
  | hang : AdvResult
deriving DecidableEq

/-! ## Roller: `random.randint` and `roll_simple` -/

/-- `random.randint(1, sides)` drawn from the stream at cursor `i`. -/
def randintVal (g : Nat → Nat) (i : Nat) (sides : Nat) : Nat :=
  1 + g i % sides

/-- `roll_simple(num_dice, sides)`: `num_dice` draws from cursor `i` on. -/
def rollSimpleList (g : Nat → Nat) (i : Nat) (numDice sides : Nat) : List Nat :=
  (List.range numDice).map (fun k => randintVal g (i + k) sides)

theorem length_rollSimpleList (g : Nat → Nat) (i numDice sides : Nat) :
    (rollSimpleList g i numDice sides).length = numDice := by
  simp [rollSimpleList]

theorem mem_rollSimpleList {g : Nat → Nat} {i numDice sides : Nat}
    (hs : 1 ≤ sides) : ∀ x ∈ rollSimpleList g i numDice sides, 1 ≤ x ∧ x ≤ sides := by
  intro x hx
  simp only [rollSimpleList, List.mem_map] at hx
  obtain ⟨k, _, rfl⟩ := hx
  unfold randintVal
  have := Nat.mod_lt (g (i + k)) (show 0 < sides by omega)
  omega

/-! ## Simple grammar: `DICE_PATTERN` and `parse_expression` -/

/-- Prefix match of `DICE_PATTERN = (\d+)d(\d+)(?:([+-])(\d+))?` against an
(already normalized) string: groups 1, 2 and the optional (3,4) pair. -/
def diceMatch (l : List Char) : Option (Nat × Nat × Option (Char × Nat)) :=
  let (d1, r1) := takeDigits l
  if d1 = [] then none
  else
    match r1 with
    | 'd' :: r2 =>
      let (d2, r3) := takeDigits r2
      if d2 = [] then none
      else
        let n := parseNatAcc 0 d1
        let s := parseNatAcc 0 d2
        match r3 with
        | c :: r4 =>
          if c = '+' ∨ c = '-' then
            let (d3, _) := takeDigits r4
            -- the whole group `(?:([+-])(\d+))?` is optional: with no digit
            -- after the sign it simply does not participate in the match
            if d3 = [] then some (n, s, none)
            else some (n, s, some (c, parseNatAcc 0 d3))
          else some (n, s, none)
        | [] => some (n, s, none)
    | _ => none

/-- `parse_expression`: `(num_dice, sides, operator, modifier)`, with
`('+', 0)` when the optional sign/modifier group is absent. -/
def parseExpression (expression : List Char) : Option (Nat × Nat × Char × Nat) :=
  match diceMatch (pyNormalize expression) with
  | none => none
  | some (n, s, none) => some (n, s, '+', 0)
  | some (n, s, some (c, m)) => some (n, s, c, m)

/-- Python `str([r1, r2, ...])` of a list of ints. -/
def commaJoin : List (List Char) → List Char
  | [] => []
  | [x] => x
  | x :: xs => x ++ ", ".toList ++ commaJoin xs

def listRepr (l : List Nat) : List Char :=
  '[' :: commaJoin (l.map natDigits) ++ [']']

/-- `DiceManager.roll`: parse, validate (before any draw), roll, total. -/
def rollRun (expression : List Char) (g : Nat → Nat) (i : Nat) : RollResult :=
  match parseExpression expression with
  | none => .invalid i
  | some (numDice, sides, operator, modifier) =>
    if numDice = 0 ∨ sides = 0 then .invalid i
    else if 100 < numDice then .invalid i
    else if 1000 < sides then .invalid i
    else
      let rolls := rollSimpleList g i numDice sides
      let diceSum := rolls.sum
      let total : Int := if operator = '+' then (diceSum : Int) + modifier
        else (diceSum : Int) - modifier
      let breakdown :=
        if modifier ≠ 0 then
          natDigits diceSum ++ (if operator = '+' then " + ".toList else " - ".toList)
            ++ natDigits modifier
        else natDigits diceSum
      .ok ⟨expression, rolls, total, breakdown⟩ (i + numDice)

/-! ## Advanced grammar: `ADV_DICE_PATTERN`, `OPERATORS`, `roll_advanced` -/

/-- The operator characters of `OPERATORS = ([adkxr!><])(\d*)`. -/
def advOpChars : List Char := ['a', 'd', 'k', 'x', 'r', '!', '>', '<']

theorem takeDigits_rest_length (l : List Char) : (takeDigits l).2.length ≤ l.length := by
  simp only [takeDigits]
  induction l with
  | nil => simp
  | cons c t ih =>
    rw [List.dropWhile_cons]
    split
    · exact Nat.le_succ_of_le ih
    · simp

/-- Greedy match of group 3 `((?:[+-]\d+|[adkxr!><]\d*)*)` of
`ADV_DICE_PATTERN`, on fuel (each step consumes at least one character, so
the wrapper's `l.length` is always enough): the consumed option text (the
unmatchable tail of the input is dropped, as `re.match` does). -/
def advOptsScanAux : Nat → List Char → List Char
  | 0, _ => []
  | _, [] => []
  | fuel + 1, c :: rest =>
    if c = '+' ∨ c = '-' then
      match rest.head? with
      | some d =>
        if d.isDigit then
          c :: (takeDigits rest).1 ++ advOptsScanAux fuel (takeDigits rest).2
        else []
      | none => []
    else if c ∈ advOpChars then
      c :: (takeDigits rest).1 ++ advOptsScanAux fuel (takeDigits rest).2
    else []

def advOptsScan (l : List Char) : List Char := advOptsScanAux l.length l

/-- Prefix match of `ADV_DICE_PATTERN = (?:(\d+))?d(\d+)((?:[+-]\d+|[adkxr!><]\d*)*)`
against a normalized string: `(num_dice, sides, options)`, with
`num_dice = 1` when group 1 is absent. -/
def advMatch (l : List Char) : Option (Nat × Nat × List Char) :=
  let (d1, r1) := takeDigits l
  match r1 with
  | 'd' :: r2 =>
    let (d2, r3) := takeDigits r2
    if d2 = [] then none
    else
      let numDice := if d1 = [] then 1 else parseNatAcc 0 d1
      some (numDice, parseNatAcc 0 d2, advOptsScan r3)
  | _ => none

/-- The state of the option flags `roll_advanced` accumulates. -/
structure AdvOpts where
  advantage : Bool := false
  disadvantage : Bool := false
  keepHighest : Nat := 0
  keepLowest : Nat := 0
  exploding : Bool := false
  rerollThreshold : Nat := 0
deriving DecidableEq

/-- `re.search(r'([+-])(\d+)$', options)`: the leftmost sign that is
followed only by digits (at least one) up to the end; returns the text
before the match, the sign and the digits. -/
def findModSplit : List Char → Option (List Char × Char × List Char)
  | [] => none
  | c :: rest =>
    if (c = '+' ∨ c = '-') ∧ rest ≠ [] ∧ rest.all Char.isDigit then
      some ([], c, rest)
    else
      match findModSplit rest with
      | some (p, s, d) => some (c :: p, s, d)
      | none => none

/-- `OPERATORS.finditer(options)`, on fuel as above: each operator character
with the numeric value of its (possibly empty) digit run, non-matching
characters skipped. -/
def opsScanAux : Nat → List Char → List (Char × Nat)
  | 0, _ => []
  | _, [] => []
  | fuel + 1, c :: rest =>
    if c ∈ advOpChars then
      (c, parseNatAcc 0 (takeDigits rest).1) :: opsScanAux fuel (takeDigits rest).2
    else opsScanAux fuel rest

def opsScan (l : List Char) : List (Char × Nat) := opsScanAux l.length l

/-- One step of the `for op_match in …` loop: how each operator updates the
flags (`value` falsy, i.e. `0`, picks the documented default). -/
def applyOp (numDice : Nat) (o : AdvOpts) : Char × Nat → AdvOpts
  | ('a', _) => {o with advantage := true}
  | ('d', _) => {o with disadvantage := true}
  | ('k', v) => {o with keepHighest := if v = 0 then numDice else v}
  | ('x', v) => {o with keepLowest := if v = 0 then numDice else v}
  | ('!', _) => {o with exploding := true}
  | ('r', v) => {o with rerollThreshold := if v = 0 then 1 else v}
  | _ => o

/-- Modifier extraction followed by the operator loop: the flag record and
the signed modifier. -/
def parseAdvOptions (numDice : Nat) (options : List Char) : AdvOpts × Int :=
  match findModSplit options with
  | some (p, sign, ds) =>
    ((opsScan p).foldl (applyOp numDice) {},
      if sign = '+' then (parseNatAcc 0 ds : Int) else -(parseNatAcc 0 ds : Int))
  | none => ((opsScan options).foldl (applyOp numDice) {}, 0)

/-! ## `roll_advanced`: rolling with options -/

/-- The `while roll == sides` body of the exploding option for one die, on
fuel (`none` = the loop was still running when the fuel ran out; in
particular `(∀ fuel, … = none) ↔` the Python loop never terminates).
Returns the rolls appended by the loop and the PRNG cursor after it. -/
def explodeWhile (g : Nat → Nat) (sides : Nat) : Nat → Nat → Nat → Option (List Nat × Nat)
  | fuel, i, r =>
    if r = sides then
      match fuel with
      | 0 => none
      | fuel + 1 =>
        match explodeWhile g sides fuel (i + 1) (randintVal g i sides) with
        | none => none
        | some (rs, j) => some (randintVal g i sides :: rs, j)
    else some ([], i)

/-- One die of the exploding branch: the initial draw plus its explosions. -/
def explodeDie (g : Nat → Nat) (sides fuel i : Nat) : Option (List Nat × Nat) :=
  match explodeWhile g sides fuel (i + 1) (randintVal g i sides) with
  | none => none
  | some (rs, j) => some (randintVal g i sides :: rs, j)

/-- The `for _ in range(num_dice)` loop of the exploding branch. -/
def explodeAll (g : Nat → Nat) (sides fuel : Nat) : Nat → Nat → Option (List Nat × Nat)
  | 0, i => some ([], i)
  | n + 1, i =>
    match explodeDie g sides fuel i with
    | none => none
    | some (rs, j) =>
      match explodeAll g sides fuel n j with
      | none => none
      | some (rs2, j2) => some (rs ++ rs2, j2)

/-- The reroll pass: every die at or below the threshold is replaced by one
fresh draw, in list order. -/
def rerollList (g : Nat → Nat) (sides threshold : Nat) : List Nat → Nat → List Nat × Nat
  | [], i => ([], i)
  | r :: rs, i =>
    if r ≤ threshold then
      (randintVal g i sides :: (rerollList g sides threshold rs (i + 1)).1,
        (rerollList g sides threshold rs (i + 1)).2)
    else
      (r :: (rerollList g sides threshold rs i).1,
        (rerollList g sides threshold rs i).2)

/-- `sorted(rolls, reverse=True)`. -/
def sortDesc (l : List Nat) : List Nat := l.insertionSort (fun a b => b ≤ a)

/-- `sorted(rolls)`. -/
def sortAsc (l : List Nat) : List Nat := l.insertionSort (fun a b => a ≤ b)

/-- The `if reroll_threshold > 0` block of `roll_advanced`. -/
def rerollStep (g : Nat → Nat) (sides threshold : Nat) (rolls : List Nat)
    (breakdown : List Char) (j : Nat) : List Nat × List Char × Nat :=
  if 0 < threshold then
    ((rerollList g sides threshold rolls j).1,
      breakdown ++ " (Rerolls: ".toList ++ natDigits threshold ++ "+)".toList,
      (rerollList g sides threshold rolls j).2)
  else (rolls, breakdown, j)

/-- The `if keep_highest > 0 and keep_highest < len(rolls)` block. -/
def keepHighestStep (kh : Nat) (rolls : List Nat) (breakdown : List Char) :
    List Nat × List Char :=
  if 0 < kh ∧ kh < rolls.length then
    ((sortDesc rolls).take kh,
      breakdown ++ " (Keep highest ".toList ++ natDigits kh ++ [')'])
  else (rolls, breakdown)

/-- The `if keep_lowest > 0 and keep_lowest < len(rolls)` block. -/
def keepLowestStep (kl : Nat) (rolls : List Nat) (breakdown : List Char) :
    List Nat × List Char :=
  if 0 < kl ∧ kl < rolls.length then
    ((sortAsc rolls).take kl,
      breakdown ++ " (Keep lowest ".toList ++ natDigits kl ++ [')'])
  else (rolls, breakdown)

/-- The final `total = sum(rolls) + modifier` with the breakdown's
modifier suffix. -/
def withMod (modifier : Int) : List Nat × List Char × Nat → List Nat × Int × List Char × Nat :=
  fun (rolls, breakdown, j) =>
    ((rolls, (rolls.sum : Int) + modifier,
      if modifier ≠ 0 then
        breakdown ++ [' '] ++ (if 0 < modifier then ['+'] else ['-']) ++ [' ']
          ++ natDigits modifier.natAbs
      else breakdown, j))

/-- `roll_advanced` after parsing and validation: the advantage /
disadvantage double roll, or the exploding / reroll / keep pipeline.
Returns `(rolls, total, breakdown, next cursor)`, `none` for fuel
exhaustion inside the exploding loop. -/
def rollWithOpts (g : Nat → Nat) (i : Nat) (numDice sides : Nat) (o : AdvOpts)
    (modifier : Int) (fuel : Nat) : Option (List Nat × Int × List Char × Nat) :=
  if o.advantage || o.disadvantage then
    let roll1 := rollSimpleList g i numDice sides
    let roll2 := rollSimpleList g (i + numDice) numDice sides
    let rolls := if o.advantage then (if roll2.sum < roll1.sum then roll1 else roll2)
      else (if roll1.sum < roll2.sum then roll1 else roll2)
    let breakdown := (if o.advantage then "Advantage: ".toList else "Disadvantage: ".toList)
      ++ natDigits roll1.sum ++ " vs ".toList ++ natDigits roll2.sum
    some (withMod modifier (rolls, breakdown, i + numDice + numDice))
  else
    let base : Option (List Nat × List Char × Nat) :=
      if o.exploding then
        match explodeAll g sides fuel numDice i with
        | none => none
        | some (rolls, j) => some (rolls, "Exploding: ".toList ++ listRepr rolls, j)
      else
        let rolls := rollSimpleList g i numDice sides
        some (rolls, "Rolls: ".toList ++ listRepr rolls, i + numDice)
    match base with
    | none => none
    | some (rolls, breakdown, j) =>
      let (rolls, breakdown, j) := rerollStep g sides o.rerollThreshold rolls breakdown j
      let (rolls, breakdown) := keepHighestStep o.keepHighest rolls breakdown
      let (rolls, breakdown) := keepLowestStep o.keepLowest rolls breakdown
      some (withMod modifier (rolls, breakdown, j))

/-- The set the advantage/disadvantage branch selects (`advantage` checked
first, so it wins when both flags are set): of the two full rolls, the one
with the higher (advantage) or lower (disadvantage) sum, ties resolved to
the second exactly as the code's strict comparisons do. -/
def advChosen (g : Nat → Nat) (i n s : Nat) (advantage : Bool) : List Nat :=
  if advantage then
    (if (rollSimpleList g (i + n) n s).sum < (rollSimpleList g i n s).sum
      then rollSimpleList g i n s else rollSimpleList g (i + n) n s)
  else
    (if (rollSimpleList g i n s).sum < (rollSimpleList g (i + n) n s).sum
      then rollSimpleList g i n s else rollSimpleList g (i + n) n s)

/-- `DiceManager.roll_advanced`: parse, validate (before any draw), parse
the options, then roll with them. -/
def rollAdvancedRun (expression : List Char) (g : Nat → Nat) (i : Nat)
    (fuel : Nat) : AdvResult :=
  match advMatch (pyNormalize expression) with
  | none => .invalid i
  | some (numDice, sides, options) =>
    if numDice = 0 ∨ sides = 0 then .invalid i
    else if 100 < numDice then .invalid i
    else if 1000 < sides then .invalid i
    else
      let (o, modifier) := parseAdvOptions numDice options
      match rollWithOpts g i numDice sides o modifier fuel with
      | none => .hang
      | some (rolls, total, breakdown, j) =>
        .ok ⟨expression, rolls, total, breakdown⟩ j

/-! ## `roll_with_context`: the contextual dispatcher -/

/-- The character subsystem's interface as the dice engine consumes it
(external collaborator; its lookups are modelled as total functions). -/
structure Actor where
  abilityModifier : List Char → Int
  skillBonus : List Char → Int

/-- Greedy `\w+` prefix. -/
def takeWord (l : List Char) : List Char × List Char :=
  (l.takeWhile isWordChar, l.dropWhile isWordChar)

/-- Greedy `\s+` prefix. -/
def takeSpaces (l : List Char) : List Char × List Char :=
  (l.takeWhile isSpaceChar, l.dropWhile isSpaceChar)

/-- `re.match(r'(\w+)\s+check', s)`: group 1 on success. -/
def matchAbilityCheck (l : List Char) : Option (List Char) :=
  let (w, r1) := takeWord l
  if w = [] then none
  else
    let (sp, r2) := takeSpaces r1
    if sp = [] then none
    else if "check".toList.isPrefixOf r2 then some w else none

/-- `re.match(r'(\w+(?:\s+\w+)?)\s+skill', s)`: group 1 on success (the
greedy optional second word is tried first, exactly as the regex engine
backtracks). -/
def matchSkillCheck (l : List Char) : Option (List Char) :=
  let (w1, r1) := takeWord l
  if w1 = [] then none
  else
    let (sp1, r2) := takeSpaces r1
    if sp1 = [] then none
    else
      let (w2, r3) := takeWord r2
      let withSecond : Option (List Char) :=
        if w2 = [] then none
        else
          let (sp2, r4) := takeSpaces r3
          if sp2 = [] then none
          else if "skill".toList.isPrefixOf r4 then some (w1 ++ sp1 ++ w2) else none
      match withSecond with
      | some res => some res
      | none => if "skill".toList.isPrefixOf r2 then some w1 else none

/-- `re.match(r'^[+-]?\d+$', s)` with Python's `int(s)` on success. -/
def matchSignedInt (l : List Char) : Option Int :=
  match l with
  | '+' :: rest =>
    if rest ≠ [] ∧ rest.all Char.isDigit then some (parseNatAcc 0 rest : Int) else none
  | '-' :: rest =>
    if rest ≠ [] ∧ rest.all Char.isDigit then some (-(parseNatAcc 0 rest : Int)) else none
  | _ => if l ≠ [] ∧ l.all Char.isDigit then some (parseNatAcc 0 l : Int) else none

/-- `f"1d20{mod_sign}{value}"` with `mod_sign = '+' if value >= 0 else ''`. -/
def oneD20Expr (value : Int) : List Char :=
  "1d20".toList ++ (if 0 ≤ value then ['+'] else []) ++ intDigits value

/-- Python's `str.title()` (ASCII model): the first cased character of each
run of letters is uppercased, the rest lowercased. -/
def titleChars : Bool → List Char → List Char
  | _, [] => []
  | prevAlpha, c :: rest =>
    if c.isAlpha then
      (if prevAlpha then lowerChar c else upperChar c) :: titleChars true rest
    else c :: titleChars false rest

/-- The outer `except Exception` handler of `roll_with_context`: retry the
(simple) roll of the current expression text, and as a last resort roll a
bare `1d20`. -/
def contextOuterFallback (expression : List Char) (g : Nat → Nat) (j : Nat) : AdvResult :=
  match rollRun expression g j with
  | .ok r j2 => .ok r j2
  | .invalid j2 =>
    match rollRun "1d20".toList g j2 with
    | .ok r j3 => .ok r j3
    | .invalid j3 => .invalid j3

/-- The rewritten expression of the standard branch: inputs without a `d`
become a `1d20` with any bare integer as modifier. -/
def contextExpr (expression : List Char) : List Char :=
  if 'd' ∈ expression then expression
  else
    match matchSignedInt expression with
    | some value => oneD20Expr value
    | none => "1d20".toList

/-- The standard branch of `roll_with_context`: advanced roll first, then
the simple roll on `ValueError`, then the outer handler. -/
def standardContextRoll (expression : List Char) (g : Nat → Nat) (i fuel : Nat) :
    AdvResult :=
  match rollAdvancedRun (contextExpr expression) g i fuel with
  | .ok r j => .ok r j
  | .hang => .hang
  | .invalid j =>
    -- `except ValueError: return self.roll(expression)`; if that raises
    -- too the outer handler runs, with `expression` still rebound
    match rollRun (contextExpr expression) g j with
    | .ok r j2 => .ok r j2
    | .invalid j2 => contextOuterFallback (contextExpr expression) g j2

/-- The ability-check branch: roll `1d20` plus the ability modifier by the
simple grammar and rewrite the result expression. -/
def abilityContextRoll (expression : List Char) (actor : Actor)
    (ability : List Char) (g : Nat → Nat) (i : Nat) : AdvResult :=
  match rollRun (oneD20Expr (actor.abilityModifier ability)) g i with
  | .ok r j =>
    .ok {r with expression := ability.map upperChar ++ " check (".toList
      ++ oneD20Expr (actor.abilityModifier ability) ++ [')']} j
  | .invalid j => contextOuterFallback expression g j

/-- The skill-check branch, analogous with `skill.title()`. -/
def skillContextRoll (expression : List Char) (actor : Actor)
    (skill : List Char) (g : Nat → Nat) (i : Nat) : AdvResult :=
  match rollRun (oneD20Expr (actor.skillBonus skill)) g i with
  | .ok r j =>
    .ok {r with expression := titleChars false skill ++ " check (".toList
      ++ oneD20Expr (actor.skillBonus skill) ++ [')']} j
  | .invalid j => contextOuterFallback expression g j

/-- `DiceManager.roll_with_context`. -/
def rollWithContextRun (expression : List Char) (character : Option Actor)
    (g : Nat → Nat) (i : Nat) (fuel : Nat) : AdvResult :=
  match character with
  | some actor =>
    match matchAbilityCheck (expression.map lowerChar) with
    | some ability => abilityContextRoll expression actor ability g i
    | none =>
      match matchSkillCheck (expression.map lowerChar) with
      | some skill => skillContextRoll expression actor skill g i
      | none => standardContextRoll expression g i fuel
  | none => standardContextRoll expression g i fuel

/-! ## `parse_dice_in_text`: scanning free-form text -/

/-- The start anchor `\b` when the pattern's first character is a word
character: the previous character (if any) must not be one. -/
def wordBoundaryStart (prev : Option Char) : Bool :=
  match prev with
  | none => true
  | some c => !isWordChar c

/-- `\b` between a last consumed character and the rest of the text. -/
def boundaryAt (lastC : Char) (l : List Char) : Bool :=
  match l with
  | [] => isWordChar lastC
  | c :: _ => xor (isWordChar lastC) (isWordChar c)

/-- `\b` when the character just consumed is a word character. -/
def endBoundaryAfterWord (l : List Char) : Bool :=
  match l with
  | [] => true
  | c :: _ => !isWordChar c

/-- One attempt of `\b(\d+d\d+(?:[+-]\d+)?)\b` at the current position:
the captured group and the rest (the optional modifier group is given back
when the trailing `\b` fails after it, as the regex engine backtracks). -/
def tryMatch1 (prev : Option Char) (l : List Char) : Option (List Char × List Char) :=
  if !wordBoundaryStart prev then none
  else
    let (d1, r1) := takeDigits l
    if d1 = [] then none
    else
      match r1 with
      | 'd' :: r2 =>
        let (d2, r3) := takeDigits r2
        if d2 = [] then none
        else
          let base := d1 ++ 'd' :: d2
          match r3 with
          | s :: r4 =>
            if s = '+' ∨ s = '-' then
              let (d3, r5) := takeDigits r4
              if d3 ≠ [] ∧ endBoundaryAfterWord r5 then some (base ++ s :: d3, r5)
              else if endBoundaryAfterWord r3 then some (base, r3)
              else none
            else if endBoundaryAfterWord r3 then some (base, r3)
            else none
          | [] => some (base, [])
      | _ => none

/-- `(?:[+-]\d+)?\b` at a given position (`lastC` = the character consumed
just before it), with the optional group given back if the final `\b`
fails after it. -/
def modBoundary (lastC : Char) (l : List Char) : Option (List Char × List Char) :=
  let skipped : Option (List Char × List Char) :=
    if boundaryAt lastC l then some ([], l) else none
  match l with
  | s :: r1 =>
    if s = '+' ∨ s = '-' then
      let (ds, r2) := takeDigits r1
      if ds ≠ [] ∧ endBoundaryAfterWord r2 then some (s :: ds, r2)
      else skipped
    else skipped
  | [] => skipped

/-- The region the star `(?:[adkxr!><]\d*)*` consumes greedily, and the
rest of the text. -/
def starFlattenAux : Nat → List Char → List Char × List Char
  | 0, l => ([], l)
  | _, [] => ([], [])
  | fuel + 1, c :: rest =>
    if c ∈ advOpChars then
      let ds := (takeDigits rest).1
      let (more, r3) := starFlattenAux fuel (takeDigits rest).2
      (c :: ds ++ more, r3)
    else ([], c :: rest)

def starFlatten (l : List Char) : List Char × List Char := starFlattenAux l.length l

/-- Backtracking of the star before `(?:[+-]\d+)?\b`: the regex gives the
greedily consumed region back one character at a time, rightmost cut
first; at each cut the optional modifier plus `\b` is attempted.  Returns
what is consumed from the cut region onward and the rest. -/
def tryCuts (lastC : Char) (region rest : List Char) : Option (List Char × List Char) :=
  match region with
  | [] => modBoundary lastC rest
  | c :: rs =>
    match tryCuts c rs rest with
    | some (m, r) => some (c :: m, r)
    | none => modBoundary lastC (c :: (rs ++ rest))

/-- One attempt of `\b(?:\d+)?d\d+(?:[adkxr!><]\d*)*(?:[+-]\d+)?\b`. -/
def tryMatch2 (prev : Option Char) (l : List Char) : Option (List Char × List Char) :=
  if !wordBoundaryStart prev then none
  else
    let (d1, r1) := takeDigits l
    match r1 with
    | 'd' :: r2 =>
      let (d2, r3) := takeDigits r2
      if d2 = [] then none
      else
        let base := d1 ++ 'd' :: d2
        let (region, rest) := starFlatten r3
        match tryCuts (d2.getLastD 'd') region rest with
        | some (m, r) => some (base ++ m, r)
        | none => none
    | _ => none

/-- `re.finditer`: scan left to right, non-overlapping, advancing one
character past a failed attempt (fuel = text length is always enough,
every step consumes at least one character). -/
def finditerAux (tryM : Option Char → List Char → Option (List Char × List Char)) :
    Nat → Option Char → List Char → List (List Char)
  | 0, _, _ => []
  | _, _, [] => []
  | fuel + 1, prev, c :: rest =>
    match tryM prev (c :: rest) with
    | some (m, r2) => m :: finditerAux tryM fuel (some (m.getLastD c)) r2
    | none => finditerAux tryM fuel (some c) rest

def finditer (tryM : Option Char → List Char → Option (List Char × List Char))
    (l : List Char) : List (List Char) :=
  finditerAux tryM l.length none l

/-- `list(set(expressions))`, modelled as first-occurrence deduplication
(the Python `set` leaves the order of distinct elements unspecified). -/
def dedupFirstAux : Nat → List (List Char) → List (List Char)
  | 0, _ => []
  | _, [] => []
  | fuel + 1, x :: xs => x :: dedupFirstAux fuel (xs.filter (fun y => y ≠ x))

def dedupFirst (l : List (List Char)) : List (List Char) := dedupFirstAux l.length l

/-- `expressions.sort(key=len, reverse=True)` (stable). -/
def sortByLenDesc (l : List (List Char)) : List (List Char) :=
  l.insertionSort (fun a b => b.length ≤ a.length)

/-- The candidate substrings `parse_dice_in_text` extracts from the text:
both `finditer` passes, deduplicated, longest first. -/
def diceCandidates (text : List Char) : List (List Char) :=
  sortByLenDesc (dedupFirst (finditer tryMatch1 text ++ finditer tryMatch2 text))

/-- The `for expr in expressions` loop: roll each candidate through
`roll_with_context`, appending the result and skipping (`except: pass`)
any candidate whose roll raises. `none` = a candidate's roll hung. -/
def rollCandidates (g : Nat → Nat) (fuel : Nat) :
    List (List Char) → Nat → Option (List DiceRoll × Nat)
  | [], i => some ([], i)
  | e :: es, i =>
    match rollWithContextRun e none g i fuel with
    | .ok r j =>
      match rollCandidates g fuel es j with
      | some (rs, j2) => some (r :: rs, j2)
      | none => none
    | .invalid j => rollCandidates g fuel es j
    | .hang => none

/-- `DiceManager.parse_dice_in_text`. -/
def parseDiceInTextRun (text : List Char) (g : Nat → Nat) (i : Nat)
    (fuel : Nat) : Option (List DiceRoll × Nat) :=
  rollCandidates g fuel (diceCandidates text) i

/-! ## Parsing lemmas -/

theorem digitChar_mem_digits (k : Nat) : digitChar k ∈ "0123456789".toList := by
  unfold digitChar
  match k with
  | 0 | 1 | 2 | 3 | 4 | 5 | 6 | 7 | 8 => decide
  | n + 9 => exact (by decide : ('9' : Char) ∈ "0123456789".toList)

theorem natDigitsAux_mem_digits (fuel : Nat) :
    ∀ n, ∀ c ∈ natDigitsAux fuel n, c ∈ "0123456789".toList := by
  induction fuel with
  | zero =>
    intro n c hc
    simp only [natDigitsAux, List.mem_singleton] at hc
    subst hc; exact digitChar_mem_digits n
  | succ fuel ih =>
    intro n c hc
    unfold natDigitsAux at hc
    split at hc
    · simp only [List.mem_singleton] at hc
      subst hc; exact digitChar_mem_digits n
    · rcases List.mem_append.1 hc with h | h
      · exact ih (n / 10) c h
      · simp only [List.mem_singleton] at h
        subst h; exact digitChar_mem_digits (n % 10)

theorem natDigits_mem_digits (n : Nat) : ∀ c ∈ natDigits n, c ∈ "0123456789".toList :=
  natDigitsAux_mem_digits n n

theorem map_id_of_forall {f : Char → Char} {l : List Char}
    (h : ∀ c ∈ l, f c = c) : l.map f = l := by
  induction l with
  | nil => rfl
  | cons c t ih =>
    rw [List.map_cons, h c (List.mem_cons_self c t),
      ih (fun x hx => h x (List.mem_cons_of_mem c hx))]

theorem filter_all_of_forall {p : Char → Bool} {l : List Char}
    (h : ∀ c ∈ l, p c = true) : l.filter p = l :=
  List.filter_eq_self.2 h

/-- `pyNormalize` leaves a decimal numeral unchanged. -/
theorem pyNormalize_natDigits (n : Nat) : pyNormalize (natDigits n) = natDigits n := by
  unfold pyNormalize
  rw [map_id_of_forall (fun c hc => by
    have := natDigits_mem_digits n c hc
    fin_cases this <;> rfl)]
  exact filter_all_of_forall (fun c hc => by
    have := natDigits_mem_digits n c hc
    fin_cases this <;> rfl)

theorem pyNormalize_append (l₁ l₂ : List Char) :
    pyNormalize (l₁ ++ l₂) = pyNormalize l₁ ++ pyNormalize l₂ := by
  simp [pyNormalize]

theorem pyNormalize_cons (c : Char) (l : List Char) :
    pyNormalize (c :: l) =
      (if lowerChar c = ' ' then pyNormalize l else lowerChar c :: pyNormalize l) := by
  simp only [pyNormalize, List.map_cons, List.filter_cons]
  split
  · next h => rw [if_neg (by simpa using h)]
  · next h => rw [if_pos (by simpa using h)]

theorem takeWhile_append_all {p : Char → Bool} {l₁ l₂ : List Char}
    (h₁ : ∀ c ∈ l₁, p c = true) (h₂ : ∀ c, l₂.head? = some c → p c = false) :
    (l₁ ++ l₂).takeWhile p = l₁ ∧ (l₁ ++ l₂).dropWhile p = l₂ := by
  induction l₁ with
  | nil =>
    cases l₂ with
    | nil => exact ⟨rfl, rfl⟩
    | cons c t =>
      have hc := h₂ c rfl
      constructor
      · simp [List.takeWhile_cons, hc]
      · simp [List.dropWhile_cons, hc]
  | cons c t ih =>
    have hc : p c = true := h₁ c (List.mem_cons_self c t)
    have iht := ih (fun x hx => h₁ x (List.mem_cons_of_mem c hx))
    constructor
    · simpa [List.takeWhile_cons, hc] using iht.1
    · simpa [List.dropWhile_cons, hc] using iht.2

theorem takeDigits_natDigits_prefix (n : Nat) {t : List Char}
    (ht : ∀ c, t.head? = some c → c.isDigit = false) :
    takeDigits (natDigits n ++ t) = (natDigits n, t) := by
  have : (natDigits n ++ t).takeWhile Char.isDigit = natDigits n
      ∧ (natDigits n ++ t).dropWhile Char.isDigit = t :=
    takeWhile_append_all (natDigits_all_digit n) ht
  simp [takeDigits, this.1, this.2]

/-- `DICE_PATTERN` against `<n>d<s><t>` where `t` cannot extend the match:
groups 1 and 2 are the two numerals and the optional group is absent. -/
theorem diceMatch_core (n s : Nat) (t : List Char)
    (ht : ∀ c, t.head? = some c → c.isDigit = false ∧ c ≠ '+' ∧ c ≠ '-') :
    diceMatch (natDigits n ++ 'd' :: natDigits s ++ t) = some (n, s, none) := by
  have h1 : takeDigits (natDigits n ++ 'd' :: (natDigits s ++ t))
      = (natDigits n, 'd' :: (natDigits s ++ t)) :=
    takeDigits_natDigits_prefix n (fun c hc => by
      simp only [List.head?_cons, Option.some.injEq] at hc
      subst hc; rfl)
  have h2 : takeDigits (natDigits s ++ t) = (natDigits s, t) :=
    takeDigits_natDigits_prefix s (fun c hc => (ht c hc).1)
  unfold diceMatch
  rw [show natDigits n ++ 'd' :: natDigits s ++ t
      = natDigits n ++ 'd' :: (natDigits s ++ t) by simp]
  rw [h1]
  simp only [natDigits_ne_nil n, if_neg (natDigits_ne_nil n)]
  rw [h2]
  simp only [if_neg (natDigits_ne_nil s)]
  rw [parseNat_natDigits, parseNat_natDigits]
  cases t with
  | nil => rfl
  | cons c r4 =>
    have hc := ht c rfl
    have hns : ¬(c = '+' ∨ c = '-') := by simp [hc.2.1, hc.2.2]
    simp [hns]

theorem pyNormalize_core (n s : Nat) :
    pyNormalize (natDigits n ++ 'd' :: natDigits s)
      = natDigits n ++ 'd' :: natDigits s := by
  rw [pyNormalize_append, pyNormalize_natDigits, pyNormalize_cons]
  rw [show lowerChar 'd' = 'd' from rfl]
  rw [if_neg (by decide), pyNormalize_natDigits]

theorem parseExpression_core (n s : Nat) :
    parseExpression (natDigits n ++ 'd' :: natDigits s) = some (n, s, '+', 0) := by
  unfold parseExpression
  rw [pyNormalize_core]
  rw [show natDigits n ++ 'd' :: natDigits s
      = natDigits n ++ 'd' :: natDigits s ++ ([] : List Char) by simp]
  rw [diceMatch_core n s [] (by intro c hc; simp at hc)]

/-- `roll` on the canonical `<count>d<sides>` expression. -/
theorem rollRun_core (count sides : Nat) (g : Nat → Nat) (i : Nat)
    (h1 : 1 ≤ count) (h2 : count ≤ 100) (h3 : 1 ≤ sides) (h4 : sides ≤ 1000) :
    rollRun (natDigits count ++ 'd' :: natDigits sides) g i
      = .ok ⟨natDigits count ++ 'd' :: natDigits sides,
          rollSimpleList g i count sides,
          ((rollSimpleList g i count sides).sum : Int),
          natDigits (rollSimpleList g i count sides).sum⟩ (i + count) := by
  unfold rollRun
  rw [parseExpression_core]
  have hA : ¬(count = 0 ∨ sides = 0) := by omega
  have hB : ¬(100 < count) := by omega
  have hC : ¬(1000 < sides) := by omega
  simp [hA, hB, hC]

/-! ## Failure characterization of `roll` -/

/-- Exactly when `roll` raises `ValueError`: no `DICE_PATTERN` match, or a
parsed count/sides outside the validated ranges. -/
def rollRejects (expression : List Char) : Bool :=
  match parseExpression expression with
  | none => true
  | some (n, s, _, _) => decide (n = 0 ∨ s = 0 ∨ 100 < n ∨ 1000 < s)

theorem rollRun_invalid_iff (e : List Char) (g : Nat → Nat) (i : Nat) :
    rollRun e g i = .invalid i ↔ rollRejects e = true := by
  unfold rollRun rollRejects
  rcases hp : parseExpression e with _ | ⟨n, s, op, m⟩
  · simp
  · by_cases h1 : n = 0 ∨ s = 0
    · simp [h1]; tauto
    · by_cases h2 : 100 < n
      · simp [h1, h2]
      · by_cases h3 : 1000 < s
        · simp [h1, h2, h3]
        · simp [h1, h2, h3]

theorem rollRun_invalid_cursor (e : List Char) (g : Nat → Nat) (i j : Nat) :
    rollRun e g i = .invalid j → j = i := by
  unfold rollRun
  rcases hp : parseExpression e with _ | ⟨n, s, op, m⟩
  · intro h; injection h; omega
  · by_cases h1 : n = 0 ∨ s = 0
    · simp [h1]
      exact fun h => h.symm
    · by_cases h2 : 100 < n
      · simp [h1, h2]
        exact fun h => h.symm
      · by_cases h3 : 1000 < s
        · simp [h1, h2, h3]
          exact fun h => h.symm
        · simp [h1, h2, h3]

/-! ## Divergence of the exploding loop on a one-sided die -/

theorem randintVal_one (g : Nat → Nat) (i : Nat) : randintVal g i 1 = 1 := by
  simp [randintVal, Nat.mod_one]

/-- The `while roll == sides` loop never exits once entered with `sides = 1`:
no fuel is enough. -/
theorem explodeWhile_one_none (g : Nat → Nat) :
    ∀ fuel i, explodeWhile g 1 fuel i 1 = none := by
  intro fuel
  induction fuel with
  | zero => intro i; rfl
  | succ fuel ih =>
    intro i
    rw [explodeWhile]
    rw [if_pos rfl]
    rw [randintVal_one]
    simp [ih (i + 1)]

theorem explodeAll_one_none (g : Nat → Nat) (fuel i : Nat) :
    explodeAll g 1 fuel 1 i = none := by
  simp [explodeAll, explodeDie, randintVal_one, explodeWhile_one_none]

theorem rollWithOpts_1d1_explode (g : Nat → Nat) (i fuel : Nat) :
    rollWithOpts g i 1 1 {exploding := true} 0 fuel = none := by
  unfold rollWithOpts
  simp [explodeAll_one_none]

theorem rollAdvancedRun_1d1_hang (g : Nat → Nat) (i fuel : Nat) :
    rollAdvancedRun "1d1!".toList g i fuel = .hang := by
  have hp : advMatch (pyNormalize "1d1!".toList) = some (1, 1, ['!']) := by decide
  unfold rollAdvancedRun
  rw [hp]
  norm_num
  rw [show parseAdvOptions 1 ['!'] = ({exploding := true}, 0) from by decide]
  simp [rollWithOpts_1d1_explode]

/-- `roll_advanced` reduced to `rollWithOpts` once the parse and the
validation are known. -/
theorem rollAdvancedRun_eq_opts (e : List Char) (g : Nat → Nat) (i fuel n s : Nat)
    (opts : List Char) (o : AdvOpts) (m : Int)
    (hp : advMatch (pyNormalize e) = some (n, s, opts))
    (ho : parseAdvOptions n opts = (o, m))
    (hn1 : 1 ≤ n) (hn2 : n ≤ 100) (hs1 : 1 ≤ s) (hs2 : s ≤ 1000) :
    rollAdvancedRun e g i fuel =
      match rollWithOpts g i n s o m fuel with
      | none => .hang
      | some (rolls, total, breakdown, j) => .ok ⟨e, rolls, total, breakdown⟩ j := by
  unfold rollAdvancedRun
  rw [hp]
  have hA : ¬(n = 0 ∨ s = 0) := by omega
  have hB : ¬(100 < n) := by omega
  have hC : ¬(1000 < s) := by omega
  simp only [hA, hB, hC, if_false, ite_false]
  rw [ho]

/-- The advantage/disadvantage branch of `rollWithOpts`: two full simple
rolls, selection by sum, nothing else applied. -/
theorem rollWithOpts_adv (g : Nat → Nat) (i n s : Nat) (o : AdvOpts) (m : Int)
    (fuel : Nat) (hflag : (o.advantage || o.disadvantage) = true) :
    ∃ breakdown,
      rollWithOpts g i n s o m fuel =
        some (advChosen g i n s o.advantage,
          ((advChosen g i n s o.advantage).sum : Int) + m,
          breakdown, i + n + n) := by
  unfold rollWithOpts advChosen
  rw [if_pos hflag]
  exact ⟨_, rfl⟩

instance : IsTotal Nat (fun a b => b ≤ a) := ⟨fun a b => le_total b a⟩

instance : IsTrans Nat (fun a b => b ≤ a) := ⟨fun _ _ _ h₁ h₂ => le_trans h₂ h₁⟩

theorem rerollList_length (g : Nat → Nat) (s t : Nat) :
    ∀ (l : List Nat) (i : Nat), (rerollList g s t l i).1.length = l.length := by
  intro l
  induction l with
  | nil => intro i; rfl
  | cons r rs ih =>
    intro i
    unfold rerollList
    split
    · simp [ih (i + 1)]
    · simp [ih i]

/-- The pure keep-highest run: `rollWithOpts` for `NdSk<kh>` (no other
options, no modifier) sorts descending and truncates. -/
theorem rollWithOpts_keepHighest (g : Nat → Nat) (i n s kh : Nat) (fuel : Nat)
    (hk1 : 0 < kh) (hk2 : kh < n) :
    rollWithOpts g i n s {keepHighest := kh} 0 fuel =
      some ((sortDesc (rollSimpleList g i n s)).take kh,
        (((sortDesc (rollSimpleList g i n s)).take kh).sum : Int),
        "Rolls: ".toList ++ listRepr (rollSimpleList g i n s)
          ++ " (Keep highest ".toList ++ natDigits kh ++ [')'], i + n) := by
  unfold rollWithOpts
  have hcond : 0 < kh ∧ kh < (rollSimpleList g i n s).length := by
    rw [length_rollSimpleList]; exact ⟨hk1, hk2⟩
  simp [rerollStep, keepHighestStep, keepLowestStep, withMod, hcond, hk1, hk2,
    length_rollSimpleList, sortDesc]

theorem rerollStep_length (g : Nat → Nat) (s t : Nat) (rolls : List Nat)
    (bd : List Char) (j : Nat) :
    (rerollStep g s t rolls bd j).1.length = rolls.length := by
  unfold rerollStep
  split
  · simp [rerollList_length]
  · rfl

/-- With the working set no larger than `n`, keeping the highest `n` is the
code's skipped branch, exactly like keeping `0` (no `k` tag). -/
theorem keepHighestStep_default_eq (n : Nat) (rolls : List Nat) (bd : List Char)
    (h : rolls.length = n) :
    keepHighestStep n rolls bd = keepHighestStep 0 rolls bd := by
  unfold keepHighestStep
  rw [if_neg (by omega), if_neg (by omega)]

/-- The omitted-`k` default (`keepHighest = count`) gives the same run as no
`k` tag at all, provided exploding is off (the working set then has exactly
`count` dice). -/
theorem rollWithOpts_keep_default (g : Nat → Nat) (i n s : Nat) (o : AdvOpts)
    (m : Int) (fuel : Nat) (hx : o.exploding = false) :
    rollWithOpts g i n s {o with keepHighest := n} m fuel
      = rollWithOpts g i n s {o with keepHighest := 0} m fuel := by
  unfold rollWithOpts
  by_cases hadv : (o.advantage || o.disadvantage) = true
  · rw [if_pos hadv, if_pos hadv]
  · rw [if_neg hadv, if_neg hadv]
    simp only [hx, Bool.false_eq_true, if_false]
    have hlen : (rerollStep g s o.rerollThreshold (rollSimpleList g i n s)
        ("Rolls: ".toList ++ listRepr (rollSimpleList g i n s)) (i + n)).1.length = n := by
      rw [rerollStep_length, length_rollSimpleList]
    rw [keepHighestStep_default_eq n _ _ hlen]

/-! ## Prefix-matching lemmas (C9) -/

theorem advOptsScan_nil_of_head (t : List Char)
    (ht : ∀ c, t.head? = some c → c ∉ ('+' :: '-' :: advOpChars)) :
    advOptsScan t = [] := by
  unfold advOptsScan
  cases t with
  | nil => rfl
  | cons c rest =>
    have hc := ht c rfl
    simp only [advOpChars, List.mem_cons, List.mem_singleton] at hc
    push_neg at hc
    rw [show (c :: rest).length = rest.length + 1 from rfl]
    unfold advOptsScanAux
    rw [if_neg (by tauto)]
    rw [if_neg (by simp [advOpChars]; tauto)]

theorem advMatch_core (n s : Nat) (t : List Char)
    (ht : ∀ c, t.head? = some c →
      c.isDigit = false ∧ c ∉ ('+' :: '-' :: advOpChars)) :
    advMatch (natDigits n ++ 'd' :: natDigits s ++ t) = some (n, s, []) := by
  have h1 : takeDigits (natDigits n ++ 'd' :: (natDigits s ++ t))
      = (natDigits n, 'd' :: (natDigits s ++ t)) :=
    takeDigits_natDigits_prefix n (fun c hc => by
      simp only [List.head?_cons, Option.some.injEq] at hc
      subst hc; rfl)
  have h2 : takeDigits (natDigits s ++ t) = (natDigits s, t) :=
    takeDigits_natDigits_prefix s (fun c hc => (ht c hc).1)
  unfold advMatch
  rw [show natDigits n ++ 'd' :: natDigits s ++ t
      = natDigits n ++ 'd' :: (natDigits s ++ t) by simp]
  rw [h1]
  simp only []
  rw [h2]
  rw [if_neg (natDigits_ne_nil s)]
  rw [if_neg (natDigits_ne_nil n), parseNat_natDigits, parseNat_natDigits]
  rw [advOptsScan_nil_of_head t (fun c hc => (ht c hc).2)]

theorem parseAdvOptions_nil (n : Nat) : parseAdvOptions n [] = ({}, 0) := rfl

/-- The plain run: no options, no modifier — just the simple rolls. -/
theorem rollWithOpts_plain (g : Nat → Nat) (i n s fuel : Nat) :
    rollWithOpts g i n s {} 0 fuel =
      some (rollSimpleList g i n s, ((rollSimpleList g i n s).sum : Int),
        "Rolls: ".toList ++ listRepr (rollSimpleList g i n s), i + n) := by
  unfold rollWithOpts
  simp [rerollStep, keepHighestStep, keepLowestStep, withMod]

/-- `roll` on any expression whose parse is `(n, s, '+', 0)`. -/
theorem rollRun_of_parse (e : List Char) (g : Nat → Nat) (i n s : Nat)
    (hp : parseExpression e = some (n, s, '+', 0))
    (h1 : 1 ≤ n) (h2 : n ≤ 100) (h3 : 1 ≤ s) (h4 : s ≤ 1000) :
    rollRun e g i
      = .ok ⟨e, rollSimpleList g i n s, ((rollSimpleList g i n s).sum : Int),
          natDigits (rollSimpleList g i n s).sum⟩ (i + n) := by
  unfold rollRun
  rw [hp]
  have hA : ¬(n = 0 ∨ s = 0) := by omega
  have hB : ¬(100 < n) := by omega
  have hC : ¬(1000 < s) := by omega
  simp [hA, hB, hC]

/-! ## Range invariants (C10) -/

theorem randintVal_bounds {g : Nat → Nat} {i s : Nat} (hs : 1 ≤ s) :
    1 ≤ randintVal g i s ∧ randintVal g i s ≤ s := by
  unfold randintVal
  have := Nat.mod_lt (g i) (show 0 < s by omega)
  omega

theorem explodeWhile_mem {g : Nat → Nat} {s : Nat} (hs : 1 ≤ s) :
    ∀ fuel i r rs j, explodeWhile g s fuel i r = some (rs, j) →
      ∀ x ∈ rs, 1 ≤ x ∧ x ≤ s := by
  intro fuel
  induction fuel with
  | zero =>
    intro i r rs j h x hx
    rw [explodeWhile] at h
    split at h
    · simp at h
    · simp only [Option.some.injEq, Prod.mk.injEq] at h
      rw [← h.1] at hx
      simp at hx
  | succ fuel ih =>
    intro i r rs j h x hx
    rw [explodeWhile] at h
    split at h
    · rcases hrec : explodeWhile g s fuel (i + 1) (randintVal g i s) with _ | ⟨rs', j'⟩
      · rw [hrec] at h; simp at h
      · rw [hrec] at h
        simp only [Option.some.injEq, Prod.mk.injEq] at h
        rw [← h.1] at hx
        rcases List.mem_cons.1 hx with hx' | hx'
        · subst hx'; exact randintVal_bounds hs
        · exact ih (i + 1) _ rs' j' hrec x hx'
    · simp only [Option.some.injEq, Prod.mk.injEq] at h
      rw [← h.1] at hx
      simp at hx

theorem explodeDie_mem {g : Nat → Nat} {s : Nat} (hs : 1 ≤ s) (fuel i : Nat)
    {rs : List Nat} {j : Nat} (h : explodeDie g s fuel i = some (rs, j)) :
    ∀ x ∈ rs, 1 ≤ x ∧ x ≤ s := by
  unfold explodeDie at h
  rcases hrec : explodeWhile g s fuel (i + 1) (randintVal g i s) with _ | ⟨rs', j'⟩
  · rw [hrec] at h; simp at h
  · rw [hrec] at h
    simp only [Option.some.injEq, Prod.mk.injEq] at h
    intro x hx
    rw [← h.1] at hx
    rcases List.mem_cons.1 hx with hx' | hx'
    · subst hx'; exact randintVal_bounds hs
    · exact explodeWhile_mem hs fuel (i + 1) _ rs' j' hrec x hx'

theorem explodeAll_mem {g : Nat → Nat} {s : Nat} (hs : 1 ≤ s) (fuel : Nat) :
    ∀ n i rs j, explodeAll g s fuel n i = some (rs, j) →
      ∀ x ∈ rs, 1 ≤ x ∧ x ≤ s := by
  intro n
  induction n with
  | zero =>
    intro i rs j h x hx
    simp only [explodeAll, Option.some.injEq, Prod.mk.injEq] at h
    rw [← h.1] at hx
    simp at hx
  | succ n ih =>
    intro i rs j h x hx
    rw [explodeAll] at h
    rcases hd : explodeDie g s fuel i with _ | ⟨rs1, j1⟩
    · rw [hd] at h; simp at h
    · rw [hd] at h
      simp only [] at h
      rcases ha : explodeAll g s fuel n j1 with _ | ⟨rs2, j2⟩
      · rw [ha] at h; simp at h
      · rw [ha] at h
        simp only [Option.some.injEq, Prod.mk.injEq] at h
        rw [← h.1] at hx
        rcases List.mem_append.1 hx with hx' | hx'
        · exact explodeDie_mem hs fuel i hd x hx'
        · exact ih j1 rs2 j2 ha x hx'

theorem rerollList_mem {g : Nat → Nat} {s t : Nat} (hs : 1 ≤ s) :
    ∀ (l : List Nat) (i : Nat), (∀ x ∈ l, 1 ≤ x ∧ x ≤ s) →
      ∀ x ∈ (rerollList g s t l i).1, 1 ≤ x ∧ x ≤ s := by
  intro l
  induction l with
  | nil => intro i _ x hx; simp [rerollList] at hx
  | cons hdv tlv ih =>
    intro i hl x hx
    unfold rerollList at hx
    split at hx
    · simp only [] at hx
      rcases List.mem_cons.1 hx with hx' | hx'
      · subst hx'; exact randintVal_bounds hs
      · exact ih (i + 1) (fun y hy => hl y (List.mem_cons_of_mem hdv hy)) x hx'
    · simp only [] at hx
      rcases List.mem_cons.1 hx with hx' | hx'
      · subst hx'; exact hl _ (List.mem_cons_self _ _)
      · exact ih i (fun y hy => hl y (List.mem_cons_of_mem hdv hy)) x hx'

theorem keepHighestStep_mem {kh : Nat} {rolls : List Nat} {bd : List Char} :
    ∀ x ∈ (keepHighestStep kh rolls bd).1, x ∈ rolls := by
  unfold keepHighestStep
  split
  · intro x hx
    simp only [] at hx
    have := List.mem_of_mem_take hx
    exact (List.Perm.mem_iff (List.perm_insertionSort _ _)).1 this
  · intro x hx; exact hx

theorem keepLowestStep_mem {kl : Nat} {rolls : List Nat} {bd : List Char} :
    ∀ x ∈ (keepLowestStep kl rolls bd).1, x ∈ rolls := by
  unfold keepLowestStep
  split
  · intro x hx
    simp only [] at hx
    have := List.mem_of_mem_take hx
    exact (List.Perm.mem_iff (List.perm_insertionSort _ _)).1 this
  · intro x hx; exact hx

theorem rerollStep_mem {g : Nat → Nat} {s t : Nat} (hs : 1 ≤ s)
    {rolls : List Nat} {bd : List Char} {j : Nat}
    (hl : ∀ x ∈ rolls, 1 ≤ x ∧ x ≤ s) :
    ∀ x ∈ (rerollStep g s t rolls bd j).1, 1 ≤ x ∧ x ≤ s := by
  unfold rerollStep
  split
  · exact rerollList_mem hs rolls j hl
  · exact hl

/-- Every roll a successful `rollWithOpts` returns lies in `[1, sides]`. -/
theorem rollWithOpts_mem {g : Nat → Nat} {i n s : Nat} {o : AdvOpts} {m : Int}
    {fuel : Nat} {rolls : List Nat} {total : Int} {bd : List Char} {j : Nat}
    (hs : 1 ≤ s) (h : rollWithOpts g i n s o m fuel = some (rolls, total, bd, j)) :
    ∀ x ∈ rolls, 1 ≤ x ∧ x ≤ s := by
  unfold rollWithOpts at h
  split at h
  · simp only [withMod, Option.some.injEq, Prod.mk.injEq] at h
    rw [← h.1]
    split
    · split
      · exact mem_rollSimpleList hs
      · exact mem_rollSimpleList hs
    · split
      · exact mem_rollSimpleList hs
      · exact mem_rollSimpleList hs
  · rcases hbase :
      (if o.exploding then
        match explodeAll g s fuel n i with
        | none => none
        | some (rolls, j) => some (rolls, "Exploding: ".toList ++ listRepr rolls, j)
      else some (rollSimpleList g i n s,
        "Rolls: ".toList ++ listRepr (rollSimpleList g i n s), i + n) :
        Option (List Nat × List Char × Nat)) with _ | ⟨rolls0, bd0, j0⟩
    · rw [hbase] at h; simp at h
    · rw [hbase] at h
      have hmem0 : ∀ x ∈ rolls0, 1 ≤ x ∧ x ≤ s := by
        split at hbase
        · rcases ha : explodeAll g s fuel n i with _ | ⟨rs1, j1⟩
          · rw [ha] at hbase; simp at hbase
          · rw [ha] at hbase
            simp only [Option.some.injEq, Prod.mk.injEq] at hbase
            rw [← hbase.1]
            exact explodeAll_mem hs fuel n i rs1 j1 ha
        · simp only [Option.some.injEq, Prod.mk.injEq] at hbase
          rw [← hbase.1]
          exact mem_rollSimpleList hs
      simp only [withMod, Option.some.injEq, Prod.mk.injEq] at h
      rw [← h.1]
      intro x hx
      have hx1 := keepLowestStep_mem x hx
      have hx2 := keepHighestStep_mem x hx1
      exact rerollStep_mem hs hmem0 x hx2

/-! ## Dispatcher lemmas (C4, C8) -/

theorem rollRun_1d20_ok (g : Nat → Nat) (j : Nat) :
    rollRun "1d20".toList g j
      = .ok ⟨"1d20".toList, rollSimpleList g j 1 20,
          ((rollSimpleList g j 1 20).sum : Int),
          natDigits (rollSimpleList g j 1 20).sum⟩ (j + 1) :=
  rollRun_of_parse _ g j 1 20 (by decide) (by norm_num) (by norm_num)
    (by norm_num) (by norm_num)

theorem contextOuterFallback_never_invalid (e : List Char) (g : Nat → Nat)
    (j : Nat) : ∀ j', contextOuterFallback e g j ≠ .invalid j' := by
  intro j'
  unfold contextOuterFallback
  rcases h1 : rollRun e g j with ⟨r, j2⟩ | j2
  · simp
  · have h20 := rollRun_1d20_ok g j2
    simp only [show "1d20".toList = ['1', 'd', '2', '0'] from rfl] at h20
    simp [h20]

theorem standardContextRoll_never_invalid (e : List Char) (g : Nat → Nat)
    (i fuel : Nat) : ∀ j, standardContextRoll e g i fuel ≠ .invalid j := by
  intro j
  unfold standardContextRoll
  rcases ha : rollAdvancedRun (contextExpr e) g i fuel with ⟨r, j2⟩ | j2 | _
  · simp
  · simp only []
    rcases hr : rollRun (contextExpr e) g j2 with ⟨r3, j3⟩ | j3
    · simp [hr]
    · simp only [hr]
      simpa using contextOuterFallback_never_invalid (contextExpr e) g j3 j
  · simp

/-- `roll_with_context` never surfaces a `ValueError`: every parse failure
is converted into a fallback, and the last resort `roll("1d20")` always
succeeds. -/
theorem rollWithContextRun_never_invalid (e : List Char) (c : Option Actor)
    (g : Nat → Nat) (i fuel : Nat) :
    ∀ j, rollWithContextRun e c g i fuel ≠ .invalid j := by
  intro j
  unfold rollWithContextRun
  cases c with
  | none => exact standardContextRoll_never_invalid e g i fuel j
  | some actor =>
    rcases hab : matchAbilityCheck (e.map lowerChar) with _ | ability
    · rcases hsk : matchSkillCheck (e.map lowerChar) with _ | skill
      · exact standardContextRoll_never_invalid e g i fuel j
      · unfold skillContextRoll
        simp only []
        rcases hr : rollRun (oneD20Expr (actor.skillBonus skill)) g i with ⟨r, j2⟩ | j2
        · simp [hr]
        · simp only [hr]
          simpa using contextOuterFallback_never_invalid e g j2 j
    · unfold abilityContextRoll
      simp only []
      rcases hr : rollRun (oneD20Expr (actor.abilityModifier ability)) g i
        with ⟨r, j2⟩ | j2
      · simp [hr]
      · simp only [hr]
        simpa using contextOuterFallback_never_invalid e g j2 j

/-- Each candidate the text-scan loop rolls contributes exactly one
`DiceRoll` (the `except: pass` skip is dead code, because
`roll_with_context` never raises). -/
theorem rollCandidates_length (g : Nat → Nat) (fuel : Nat) :
    ∀ (es : List (List Char)) (i : Nat) (rs : List DiceRoll) (j : Nat),
      rollCandidates g fuel es i = some (rs, j) → rs.length = es.length := by
  intro es
  induction es with
  | nil =>
    intro i rs j h
    simp only [rollCandidates, Option.some.injEq, Prod.mk.injEq] at h
    rw [← h.1]
    rfl
  | cons e es ih =>
    intro i rs j h
    rw [rollCandidates] at h
    rcases hc : rollWithContextRun e none g i fuel with ⟨r, j1⟩ | j1 | _
    · rw [hc] at h
      simp only [] at h
      rcases hrest : rollCandidates g fuel es j1 with _ | ⟨rs2, j2⟩
      · rw [hrest] at h; simp at h
      · rw [hrest] at h
        simp only [Option.some.injEq, Prod.mk.injEq] at h
        rw [← h.1]
        simp [ih j1 rs2 j2 hrest]
    · exact absurd hc (rollWithContextRun_never_invalid e none g i fuel j1)
    · rw [hc] at h; simp at h

/-! ## Claim theorems -/

/-- **C1.**  For every `count ∈ [1,100]` and `sides ∈ [1,1000]`, `roll` of
the expression `"<count>d<sides>"` returns a `DiceRoll` whose `rolls` has
exactly `count` elements, each in `[1, sides]`, and whose `total` equals
the sum of the rolls (the modifier is 0 since the expression has no
suffix). -/
theorem claim_roll_canonical (count sides : Nat) (g : Nat → Nat) (i : Nat)
    (h1 : 1 ≤ count) (h2 : count ≤ 100) (h3 : 1 ≤ sides) (h4 : sides ≤ 1000) :
    ∃ r : DiceRoll,
      rollRun (natDigits count ++ 'd' :: natDigits sides) g i = .ok r (i + count)
      ∧ r.rolls.length = count
      ∧ (∀ x ∈ r.rolls, 1 ≤ x ∧ x ≤ sides)
      ∧ r.total = (r.rolls.sum : Int) := by
  refine ⟨_, rollRun_core count sides g i h1 h2 h3 h4, ?_, ?_, rfl⟩
  · exact length_rollSimpleList g i count sides
  · exact mem_rollSimpleList h3

theorem claim_roll_canonical_witness :
    1 ≤ 2 ∧ 2 ≤ 100 ∧ 1 ≤ 6 ∧ 6 ≤ 1000 ∧
    ∃ r : DiceRoll,
      rollRun (natDigits 2 ++ 'd' :: natDigits 6) (fun n => n) 0 = .ok r (0 + 2)
      ∧ r.rolls.length = 2
      ∧ (∀ x ∈ r.rolls, 1 ≤ x ∧ x ≤ 6)
      ∧ r.total = (r.rolls.sum : Int) :=
  ⟨by norm_num, by norm_num, by norm_num, by norm_num,
    claim_roll_canonical 2 6 (fun n => n) 0 (by norm_num) (by norm_num)
      (by norm_num) (by norm_num)⟩

/-- **C5.**  When an advanced expression carries the advantage or
disadvantage flag, the engine rolls the full `(count, sides)` set twice
and selects the set with the higher sum (advantage) or lower sum
(disadvantage); the selected set is one of the two raw rolls, so the
remaining option transforms (exploding, reroll, keep) are not applied; if
both flags are set, advantage takes precedence (`advChosen` is driven by
the `advantage` flag alone); the total is the selected set's sum plus the
modifier. -/
theorem claim_advantage_selection
    (e : List Char) (g : Nat → Nat) (i fuel n s : Nat) (opts : List Char)
    (o : AdvOpts) (m : Int)
    (hp : advMatch (pyNormalize e) = some (n, s, opts))
    (ho : parseAdvOptions n opts = (o, m))
    (hflag : o.advantage = true ∨ o.disadvantage = true)
    (hn1 : 1 ≤ n) (hn2 : n ≤ 100) (hs1 : 1 ≤ s) (hs2 : s ≤ 1000) :
    ∃ breakdown,
      rollAdvancedRun e g i fuel
        = .ok ⟨e, advChosen g i n s o.advantage,
            ((advChosen g i n s o.advantage).sum : Int) + m, breakdown⟩ (i + n + n)
      ∧ (advChosen g i n s o.advantage = rollSimpleList g i n s
          ∨ advChosen g i n s o.advantage = rollSimpleList g (i + n) n s)
      ∧ (o.advantage = true →
          (advChosen g i n s o.advantage).sum
            = max (rollSimpleList g i n s).sum (rollSimpleList g (i + n) n s).sum)
      ∧ (o.advantage = false →
          (advChosen g i n s o.advantage).sum
            = min (rollSimpleList g i n s).sum (rollSimpleList g (i + n) n s).sum) := by
  have hb : (o.advantage || o.disadvantage) = true := by
    rcases hflag with h | h <;> simp [h]
  obtain ⟨bd, hro⟩ := rollWithOpts_adv g i n s o m fuel hb
  refine ⟨bd, ?_, ?_, ?_, ?_⟩
  · rw [rollAdvancedRun_eq_opts e g i fuel n s opts o m hp ho hn1 hn2 hs1 hs2, hro]
  · unfold advChosen
    split
    · split
      · exact Or.inl rfl
      · exact Or.inr rfl
    · split
      · exact Or.inl rfl
      · exact Or.inr rfl
  · intro ha
    unfold advChosen
    simp only [ha, if_true]
    split <;> omega
  · intro ha
    unfold advChosen
    simp only [ha, Bool.false_eq_true, if_false]
    split <;> omega

theorem claim_advantage_selection_witness :
    ∃ breakdown,
      rollAdvancedRun "2d6ad+1".toList (fun _ => 0) 0 0
        = .ok ⟨"2d6ad+1".toList, advChosen (fun _ => 0) 0 2 6 true,
            ((advChosen (fun _ => 0) 0 2 6 true).sum : Int) + 1, breakdown⟩ (0 + 2 + 2)
      ∧ (advChosen (fun _ => 0) 0 2 6 true = rollSimpleList (fun _ => 0) 0 2 6
          ∨ advChosen (fun _ => 0) 0 2 6 true = rollSimpleList (fun _ => 0) (0 + 2) 2 6)
      ∧ (true = true →
          (advChosen (fun _ => 0) 0 2 6 true).sum
            = max (rollSimpleList (fun _ => 0) 0 2 6).sum
                (rollSimpleList (fun _ => 0) (0 + 2) 2 6).sum)
      ∧ (true = false →
          (advChosen (fun _ => 0) 0 2 6 true).sum
            = min (rollSimpleList (fun _ => 0) 0 2 6).sum
                (rollSimpleList (fun _ => 0) (0 + 2) 2 6).sum) :=
  claim_advantage_selection "2d6ad+1".toList (fun _ => 0) 0 0 2 6 "ad+1".toList
    {advantage := true, disadvantage := true} 1 (by decide) (by decide)
    (Or.inl rfl) (by norm_num) (by norm_num) (by norm_num) (by norm_num)

/-- **C6.**  `rollAdvanced("4d6k3")` always returns exactly 3 kept rolls:
the working set sorted descending and truncated to 3 — a maximal subset of
the 4 dice rolled (every kept roll is `≥` every discarded one, and kept
plus discarded is a permutation of the raw set) — and the total is their
sum. -/
theorem claim_keep_3_of_4 (g : Nat → Nat) (i fuel : Nat) :
    ∃ breakdown,
      rollAdvancedRun "4d6k3".toList g i fuel
        = .ok ⟨"4d6k3".toList, (sortDesc (rollSimpleList g i 4 6)).take 3,
            (((sortDesc (rollSimpleList g i 4 6)).take 3).sum : Int), breakdown⟩ (i + 4)
      ∧ ((sortDesc (rollSimpleList g i 4 6)).take 3).length = 3
      ∧ List.Perm ((sortDesc (rollSimpleList g i 4 6)).take 3
          ++ (sortDesc (rollSimpleList g i 4 6)).drop 3) (rollSimpleList g i 4 6)
      ∧ (∀ x ∈ (sortDesc (rollSimpleList g i 4 6)).take 3,
          ∀ y ∈ (sortDesc (rollSimpleList g i 4 6)).drop 3, y ≤ x) := by
  have hp : advMatch (pyNormalize "4d6k3".toList) = some (4, 6, "k3".toList) := by
    decide
  have ho : parseAdvOptions 4 "k3".toList = ({keepHighest := 3}, 0) := by decide
  refine ⟨"Rolls: ".toList ++ listRepr (rollSimpleList g i 4 6)
      ++ " (Keep highest ".toList ++ natDigits 3 ++ [')'], ?_, ?_, ?_, ?_⟩
  · rw [rollAdvancedRun_eq_opts _ g i fuel 4 6 _ _ _ hp ho (by norm_num) (by norm_num)
      (by norm_num) (by norm_num),
      rollWithOpts_keepHighest g i 4 6 3 fuel (by norm_num) (by norm_num)]
  · rw [List.length_take]
    have hlen : (sortDesc (rollSimpleList g i 4 6)).length = 4 := by
      rw [sortDesc, List.length_insertionSort, length_rollSimpleList]
    rw [hlen]
    norm_num
  · rw [List.take_append_drop]
    exact List.perm_insertionSort _ _
  · have hs := List.sorted_insertionSort (fun a b => b ≤ a) (rollSimpleList g i 4 6)
    rw [← List.take_append_drop 3 ((rollSimpleList g i 4 6).insertionSort
      (fun a b => b ≤ a))] at hs
    intro x hx y hy
    exact (List.pairwise_append.1 hs).2.2 x hx y hy

/-- **C7 (amended).**  In an advanced expression a `k` tag with the digit
omitted parses to `keepHighest = count`; provided exploding is absent, the
keep-highest step is then a no-op — the run (rolls, total, breakdown,
cursor) is identical to the run of the same components without the `k`
tag, for any combination of the other options, and the full
`roll_advanced` result differs only in the stored expression text.  (With
exploding, appended explosion rolls can make the working set larger than
`count`, and the defaulted `k` then truncates it — see the
counterexample.) -/
theorem claim_keep_omitted_default
    (g : Nat → Nat) (i fuel n s : Nat) (o : AdvOpts) (m : Int)
    (hx : o.exploding = false) :
    parseAdvOptions n ['k'] = ({keepHighest := n}, 0)
    ∧ rollWithOpts g i n s {o with keepHighest := n} m fuel
        = rollWithOpts g i n s {o with keepHighest := 0} m fuel
    ∧ (∀ (e₁ e₂ opts₁ opts₂ : List Char),
        advMatch (pyNormalize e₁) = some (n, s, opts₁) →
        advMatch (pyNormalize e₂) = some (n, s, opts₂) →
        parseAdvOptions n opts₁ = ({o with keepHighest := n}, m) →
        parseAdvOptions n opts₂ = ({o with keepHighest := 0}, m) →
        1 ≤ n → n ≤ 100 → 1 ≤ s → s ≤ 1000 →
        ∀ r₁ j₁, rollAdvancedRun e₁ g i fuel = .ok r₁ j₁ →
          rollAdvancedRun e₂ g i fuel
            = .ok ⟨e₂, r₁.rolls, r₁.total, r₁.breakdown⟩ j₁) := by
  refine ⟨?_, rollWithOpts_keep_default g i n s o m fuel hx, ?_⟩
  · simp [parseAdvOptions, findModSplit, opsScan, opsScanAux, takeDigits, applyOp]
    rfl
  · intro e₁ e₂ opts₁ opts₂ hp₁ hp₂ ho₁ ho₂ hn1 hn2 hs1 hs2 r₁ j₁ hok
    rw [rollAdvancedRun_eq_opts e₁ g i fuel n s opts₁ _ m hp₁ ho₁ hn1 hn2 hs1 hs2] at hok
    rw [rollAdvancedRun_eq_opts e₂ g i fuel n s opts₂ _ m hp₂ ho₂ hn1 hn2 hs1 hs2]
    rw [rollWithOpts_keep_default g i n s o m fuel hx] at hok
    rcases hro : rollWithOpts g i n s {o with keepHighest := 0} m fuel
      with _ | ⟨rolls, total, bd, j⟩
    · rw [hro] at hok
      exact absurd hok (by simp)
    · rw [hro] at hok
      injection hok with h1 h2
      subst h1
      subst h2
      rfl

theorem claim_keep_omitted_default_witness :
    parseAdvOptions 2 ['k'] = ({keepHighest := 2}, 0)
    ∧ rollWithOpts (fun _ => 0) 0 2 6 {keepHighest := 2} 0 0
        = rollWithOpts (fun _ => 0) 0 2 6 {keepHighest := 0} 0 0
    ∧ (∀ (e₁ e₂ opts₁ opts₂ : List Char),
        advMatch (pyNormalize e₁) = some (2, 6, opts₁) →
        advMatch (pyNormalize e₂) = some (2, 6, opts₂) →
        parseAdvOptions 2 opts₁ = ({keepHighest := 2}, 0) →
        parseAdvOptions 2 opts₂ = ({keepHighest := 0}, 0) →
        1 ≤ 2 → 2 ≤ 100 → 1 ≤ 6 → 6 ≤ 1000 →
        ∀ r₁ j₁, rollAdvancedRun e₁ (fun _ => 0) 0 0 = .ok r₁ j₁ →
          rollAdvancedRun e₂ (fun _ => 0) 0 0
            = .ok ⟨e₂, r₁.rolls, r₁.total, r₁.breakdown⟩ j₁) :=
  claim_keep_omitted_default (fun _ => 0) 0 0 2 6 {} 0 rfl

/-- **C7, counterexample to the claim as frozen.**  With exploding in play
the omitted-digit `k` is *not* a no-op: on `1d2!` the stream that rolls
`2` (the maximum, triggering one explosion) and then `1` produces rolls
`[2, 1]` and total `3`, while `1d2!k` — whose `k` parses to the default
`keepHighest = 1 = count` — keeps only `[2]` and totals `2`. -/
theorem claim_keep_omitted_default_cex :
    parseAdvOptions 1 "!k".toList = ({exploding := true, keepHighest := 1}, 0)
    ∧ rollAdvancedRun "1d2!".toList (fun n => if n = 0 then 1 else 0) 0 5
        = .ok ⟨"1d2!".toList, [2, 1], 3, "Exploding: [2, 1]".toList⟩ 2
    ∧ rollAdvancedRun "1d2!k".toList (fun n => if n = 0 then 1 else 0) 0 5
        = .ok ⟨"1d2!k".toList, [2], 2, "Exploding: [2, 1] (Keep highest 1)".toList⟩ 2
    ∧ (2 : Int) ≠ 3 :=
  ⟨by decide, by decide, by decide, by decide⟩

/-- **C9 (amended).**  `roll` and `rollAdvanced` match their grammars
greedily against a prefix of the (normalized) input: trailing characters
that cannot begin an extension of the match — not a digit, not a sign and
not an option character — are silently ignored, and the call behaves
exactly as on the bare `<count>d<sides>` expression.  (Trailing characters
that *can* extend the match are instead consumed, which may change or
invalidate the parse — see the counterexample.) -/
theorem claim_prefix_ignored (count sides : Nat) (t : List Char) (g : Nat → Nat)
    (i fuel : Nat)
    (h1 : 1 ≤ count) (h2 : count ≤ 100) (h3 : 1 ≤ sides) (h4 : sides ≤ 1000)
    (ht : ∀ c, (pyNormalize t).head? = some c →
      c.isDigit = false ∧ c ∉ ('+' :: '-' :: advOpChars)) :
    rollRun (natDigits count ++ 'd' :: natDigits sides ++ t) g i
      = .ok ⟨natDigits count ++ 'd' :: natDigits sides ++ t,
          rollSimpleList g i count sides,
          ((rollSimpleList g i count sides).sum : Int),
          natDigits (rollSimpleList g i count sides).sum⟩ (i + count)
    ∧ rollAdvancedRun (natDigits count ++ 'd' :: natDigits sides ++ t) g i fuel
      = .ok ⟨natDigits count ++ 'd' :: natDigits sides ++ t,
          rollSimpleList g i count sides,
          ((rollSimpleList g i count sides).sum : Int),
          "Rolls: ".toList ++ listRepr (rollSimpleList g i count sides)⟩
        (i + count) := by
  have hassoc : natDigits count ++ 'd' :: natDigits sides ++ t
      = (natDigits count ++ 'd' :: natDigits sides) ++ t := by simp
  have hnorm : pyNormalize (natDigits count ++ 'd' :: natDigits sides ++ t)
      = natDigits count ++ 'd' :: natDigits sides ++ pyNormalize t := by
    rw [hassoc, pyNormalize_append, pyNormalize_core]
  constructor
  · refine rollRun_of_parse _ g i count sides ?_ h1 h2 h3 h4
    unfold parseExpression
    rw [hnorm]
    rw [show natDigits count ++ 'd' :: natDigits sides ++ pyNormalize t
        = natDigits count ++ 'd' :: natDigits sides ++ pyNormalize t from rfl]
    rw [diceMatch_core count sides (pyNormalize t) (fun c hc => by
      have h := ht c hc
      simp only [List.mem_cons] at h
      exact ⟨h.1, fun he => h.2 (Or.inl he), fun he => h.2 (Or.inr (Or.inl he))⟩)]
  · have hp : advMatch (pyNormalize (natDigits count ++ 'd' :: natDigits sides ++ t))
        = some (count, sides, []) := by
      rw [hnorm]
      exact advMatch_core count sides (pyNormalize t) ht
    rw [rollAdvancedRun_eq_opts _ g i fuel count sides [] {} 0 hp
      (parseAdvOptions_nil count) h1 h2 h3 h4]
    rw [rollWithOpts_plain]

theorem claim_prefix_ignored_witness :
    rollRun (natDigits 2 ++ 'd' :: natDigits 6 ++ "zzz".toList) (fun _ => 0) 0
      = .ok ⟨natDigits 2 ++ 'd' :: natDigits 6 ++ "zzz".toList,
          rollSimpleList (fun _ => 0) 0 2 6,
          ((rollSimpleList (fun _ => 0) 0 2 6).sum : Int),
          natDigits (rollSimpleList (fun _ => 0) 0 2 6).sum⟩ (0 + 2)
    ∧ rollAdvancedRun (natDigits 2 ++ 'd' :: natDigits 6 ++ "zzz".toList)
        (fun _ => 0) 0 1
      = .ok ⟨natDigits 2 ++ 'd' :: natDigits 6 ++ "zzz".toList,
          rollSimpleList (fun _ => 0) 0 2 6,
          ((rollSimpleList (fun _ => 0) 0 2 6).sum : Int),
          "Rolls: ".toList ++ listRepr (rollSimpleList (fun _ => 0) 0 2 6)⟩
        (0 + 2) :=
  claim_prefix_ignored 2 6 "zzz".toList (fun _ => 0) 0 1 (by norm_num) (by norm_num)
    (by norm_num) (by norm_num) (by decide)

/-- **C9, counterexample to the claim as frozen.**  Not every string with a
valid-expression prefix is accepted: `"2d6"` is valid (`roll` succeeds on
it), yet `roll("2d6999")` raises, because the greedy match extends the
sides numeral to `6999`, which fails the `sides ≤ 1000` validation.
(`roll("2d6xyz")`, the claim's own example, is accepted, since `xyz`
cannot extend the match.) -/
theorem claim_prefix_ignored_cex :
    rollRejects "2d6".toList = false
    ∧ rollRun "2d6".toList (fun _ => 0) 0
        = .ok ⟨"2d6".toList, [1, 1], 2, "2".toList⟩ 2
    ∧ rollRun "2d6999".toList (fun _ => 0) 0 = .invalid 0
    ∧ rollRun "2d6xyz".toList (fun _ => 0) 0
        = .ok ⟨"2d6xyz".toList, [1, 1], 2, "2".toList⟩ 2 :=
  ⟨by decide, by decide, by decide, by decide⟩

/-- **C4.**  The claim says `rollWithContext` never throws and returns a
`DiceRoll` for every input.  It indeed never raises (see
`rollWithContextRun_never_invalid`, used by C8), but it does not return on
every input: `rollWithContext("1d1!")` reaches the advanced roll's
exploding loop, which diverges (the C2 bug), with or without an actor —
the dispatcher hangs instead of returning a `DiceRoll`. -/
theorem claim_context_1d1_hang (c : Option Actor) (g : Nat → Nat) (i fuel : Nat) :
    rollWithContextRun "1d1!".toList c g i fuel = .hang := by
  have hstd : standardContextRoll "1d1!".toList g i fuel = .hang := by
    unfold standardContextRoll
    have hce : contextExpr "1d1!".toList = "1d1!".toList := by decide
    rw [hce, rollAdvancedRun_1d1_hang g i fuel]
  unfold rollWithContextRun
  cases c with
  | none => exact hstd
  | some actor =>
    simp only [show matchAbilityCheck (List.map lowerChar "1d1!".toList) = none from
        by decide,
      show matchSkillCheck (List.map lowerChar "1d1!".toList) = none from by decide]
    exact hstd

/-- **C8 (amended).**  `parseDiceInText` scans the text with both grammar
patterns, deduplicates the candidates and rolls each through
`rollWithContext`.  Because `rollWithContext` never raises, the
`except: pass` skip branch is dead code: whenever the scan returns (no
candidate hangs in the exploding loop), *every* deduplicated candidate
contributes exactly one `DiceRoll` — a candidate that fails both grammars
contributes a fallback `1d20` roll rather than being skipped. -/
theorem claim_text_scan_counts (text : List Char) (g : Nat → Nat) (i fuel : Nat)
    (results : List DiceRoll) (j : Nat)
    (h : parseDiceInTextRun text g i fuel = some (results, j)) :
    results.length = (diceCandidates text).length :=
  rollCandidates_length g fuel (diceCandidates text) i results j h

theorem claim_text_scan_counts_witness :
    ([⟨"2d6".toList, [1, 1], 2, "Rolls: [1, 1]".toList⟩] : List DiceRoll).length
      = (diceCandidates "2d6 hello".toList).length :=
  claim_text_scan_counts "2d6 hello".toList (fun _ => 0) 0 1
    [⟨"2d6".toList, [1, 1], 2, "Rolls: [1, 1]".toList⟩] 2 (by decide)

/-- **C8, counterexample to the claim as frozen.**  The candidate
`"2d1001"` parses under neither grammar's validation (`roll` and
`rollAdvanced` both raise on it), so per the claim it should contribute no
`DiceRoll`; the code instead returns one `DiceRoll` for it — the `1d20`
fallback produced by `rollWithContext`'s leniency. -/
theorem claim_text_scan_cex :
    rollRejects "2d1001".toList = true
    ∧ rollAdvancedRun "2d1001".toList (fun _ => 0) 0 1 = .invalid 0
    ∧ diceCandidates "2d1001".toList = ["2d1001".toList]
    ∧ parseDiceInTextRun "2d1001".toList (fun _ => 0) 0 1
        = some ([⟨"1d20".toList, [1], 1, "1".toList⟩], 1)
    ∧ ([(⟨"1d20".toList, [1], 1, "1".toList⟩ : DiceRoll)] : List DiceRoll).length ≠ 0 :=
  ⟨by decide, by decide, by decide, by decide, by decide⟩

/-- **C10.**  Whenever `roll` or `rollAdvanced` returns a `DiceRoll`, every
element of its `rolls` lies in `[1, sides]` of the parsed expression: each
individual draw, exploding append and reroll replacement is a fresh
`randint(1, sides)`, and the keep truncations only remove elements. -/
theorem claim_rolls_in_range (e : List Char) (g : Nat → Nat) (i fuel : Nat) :
    (∀ r j, rollRun e g i = .ok r j →
      ∃ n s om, diceMatch (pyNormalize e) = some (n, s, om)
        ∧ 1 ≤ s ∧ ∀ x ∈ r.rolls, 1 ≤ x ∧ x ≤ s)
    ∧ (∀ r j, rollAdvancedRun e g i fuel = .ok r j →
      ∃ n s opts, advMatch (pyNormalize e) = some (n, s, opts)
        ∧ 1 ≤ s ∧ ∀ x ∈ r.rolls, 1 ≤ x ∧ x ≤ s) := by
  constructor
  · intro r j hok
    unfold rollRun parseExpression at hok
    rcases hm : diceMatch (pyNormalize e) with _ | ⟨n, s, om⟩
    · rw [hm] at hok; simp at hok
    · rw [hm] at hok
      rcases om with _ | ⟨c, mv⟩
      all_goals
        simp only [] at hok
        by_cases h1 : n = 0 ∨ s = 0
        · simp [h1] at hok
        · by_cases h2 : 100 < n
          · simp [h1, h2] at hok
          · by_cases h3 : 1000 < s
            · simp [h1, h2, h3] at hok
            · simp only [h1, h2, h3, if_false] at hok
              refine ⟨n, s, _, rfl, by omega, ?_⟩
              have hr : r.rolls = rollSimpleList g i n s := by
                injection hok with hr1 hr2
                rw [← hr1]
              rw [hr]
              exact mem_rollSimpleList (by omega)
  · intro r j hok
    unfold rollAdvancedRun at hok
    rcases hm : advMatch (pyNormalize e) with _ | ⟨n, s, opts⟩
    · rw [hm] at hok; simp at hok
    · rw [hm] at hok
      simp only [] at hok
      by_cases h1 : n = 0 ∨ s = 0
      · simp [h1] at hok
      · by_cases h2 : 100 < n
        · simp [h1, h2] at hok
        · by_cases h3 : 1000 < s
          · simp [h1, h2, h3] at hok
          · simp only [h1, h2, h3, if_false] at hok
            refine ⟨n, s, opts, rfl, by omega, ?_⟩
            rcases hro : rollWithOpts g i n s (parseAdvOptions n opts).1
                (parseAdvOptions n opts).2 fuel with _ | ⟨rolls, total, bd, j2⟩
            · rw [hro] at hok; simp at hok
            · rw [hro] at hok
              simp only [AdvResult.ok.injEq] at hok
              have hr : r.rolls = rolls := by rw [← hok.1]
              rw [hr]
              exact rollWithOpts_mem (by omega) hro

/-- **C2.** The claim says `rollAdvanced("1d1!")` terminates under an
internal safety cap.  The code has no such cap: its exploding-dice
`while roll == sides` loop rerolls forever when `sides = 1`, because every
draw equals the maximum face.  This theorem evaluates the code at the
failing input: no amount of fuel makes the loop finish, for every PRNG
stream — the call diverges instead of returning. -/
theorem claim_exploding_1d1_diverges (g : Nat → Nat) (i fuel : Nat) :
    rollAdvancedRun "1d1!".toList g i fuel = .hang :=
  rollAdvancedRun_1d1_hang g i fuel

/-- **C3.**  `roll` raises `ValueError` exactly for inputs that match no
grammar or whose parsed count is outside `[1,100]` or sides outside
`[1,1000]`; in particular `"abc"`, `"0d6"`, `"2d0"`, `"101d6"`, `"2d1001"`
all raise; and on such inputs the raise happens with the PRNG cursor still
at its initial value — validation fails before any die is rolled. -/
theorem claim_roll_invalid_exactly (e : List Char) (g : Nat → Nat) (i : Nat) :
    (rollRun e g i = .invalid i ↔ rollRejects e = true)
    ∧ (∀ j, rollRun e g i = .invalid j → j = i)
    ∧ rollRun "abc".toList g i = .invalid i
    ∧ rollRun "0d6".toList g i = .invalid i
    ∧ rollRun "2d0".toList g i = .invalid i
    ∧ rollRun "101d6".toList g i = .invalid i
    ∧ rollRun "2d1001".toList g i = .invalid i :=
  ⟨rollRun_invalid_iff e g i,
    rollRun_invalid_cursor e g i,
    (rollRun_invalid_iff _ g i).2 (by decide),
    (rollRun_invalid_iff _ g i).2 (by decide),
    (rollRun_invalid_iff _ g i).2 (by decide),
    (rollRun_invalid_iff _ g i).2 (by decide),
    (rollRun_invalid_iff _ g i).2 (by decide)⟩

end BishopDice
